import Mathlib

/-!
# Verification of the TypeDoc Alias Converter
A shallow embedding of `src/lib/converter/types/alias.ts` (class `AliasConverter`,
methods `supportsNode` and `convertNode`) together with the narrow slices of its
external collaborators (`Context`, `ReferenceType`, the owning registry) that the
converter touches, and proofs of the specified properties.

Strings are modelled as `List Char` so that the splitting/joining/regex-replace
pipeline of `supportsNode` can be reasoned about directly.
-/

set_option autoImplicit false

namespace AliasConv

/-- Source text, modelled as a list of characters. -/
abbrev Str := List Char

/-- `ts.Symbol` is opaque to the alias converter: only its identity matters
(it is passed to the `Context` accessors and stored in the deferred queue). -/
abbrev Symbol := Nat

/-- A type-argument syntax node (`ts.TypeNode`); opaque to the alias converter,
which only forwards the list to the owner registry. -/
abbrev TypeNode := Nat

/-- A converted type produced by the owner registry's `convertTypes`; opaque here. -/
abbrev ConvertedType := Nat

/-- `ts.EntityName`: either an identifier or a qualified name `left.right`
(`ts.isQualifiedName` distinguishes the two). -/
inductive EntityName where
  | ident (text : Str)
  | qualified (left : EntityName) (right : Str)
deriving DecidableEq

/-- `getText()` of an entity name: the surface text as written,
with `.` separating the qualifier from the right-hand identifier. -/
def EntityName.getText : EntityName → Str
  | .ident t => t
  | .qualified l r => l.getText ++ '.' :: r

/-- `ts.TypeReferenceNode`: carries `typeName` (checked for presence by
`supportsNode`, line 28 of alias.ts) and optional `typeArguments`. -/
structure TypeReferenceNode where
  typeName : Option EntityName
  typeArguments : Option (List TypeNode)
deriving DecidableEq

/-- `ts.Type` as seen by the alias converter: only its optional `symbol` is read. -/
structure Ty where
  symbol : Option Symbol
deriving DecidableEq

/-- Modelled from the spec: `ReferenceType`'s resolution target
(`../../models/index` is not under `src/`) — "either a fully-qualified name
string, or a sentinel meaning resolve later by name lookup"
(`ReferenceType.SYMBOL_FQN_RESOLVE_BY_NAME`). -/
inductive ResolutionTarget where
  | fqn (s : Str)
  | resolveByName
deriving DecidableEq

/-- Modelled from the spec: the `ReferenceType` output entity
(`../../models/index` is not under `src/`) — fields `name` (surface name as
written), `resolutionTarget`, and `typeArguments` (unset by the constructor,
assigned only when the node carries type-argument syntax). -/
structure ReferenceType where
  name : Str
  resolutionTarget : ResolutionTarget
  typeArguments : Option (List ConvertedType) := none
deriving DecidableEq

/-- Modelled from the spec: the Conversion Context (`../context` is not under
`src/`), with the required shapes of §6 — `getSymbolAtLocation` (keyed here by
the identifier's text), `resolveAliasedSymbol` (accepting an absent symbol, as
the call site on line 76 of alias.ts may pass one), `getFullyQualifiedName`,
and the deferred-reflection queue written by `saveRemainingSymbolReflection`. -/
structure Context where
  getFullyQualifiedName : Symbol → Str
  getSymbolAtLocation : Str → Option Symbol
  resolveAliasedSymbol : Option Symbol → Option Symbol
  remainingSymbolReflections : List (Str × Symbol)

/-- Update an association list at a key: overwrite the first entry with that
key, or append a new entry. -/
def upsert : List (Str × Symbol) → Str → Symbol → List (Str × Symbol)
  | [], f, s => [(f, s)]
  | p :: ps, f, s => if p.1 = f then (f, s) :: ps else p :: upsert ps f s

/-- Modelled from the spec: `saveRemainingSymbolReflection(fullyQualifiedName,
symbol)` — "idempotent; queues the symbol for later materialization" (§6),
"writes are append/overwrite-by-key", duplicates "deduplicated, not appended"
(§5). -/
def Context.saveRemainingSymbolReflection (ctx : Context) (f : Str) (s : Symbol) :
    Context :=
  { ctx with remainingSymbolReflections := upsert ctx.remainingSymbolReflections f s }

/-- State-passing form of the `Context.getFullyQualifiedName` accessor:
a read, per the §6 interface shape. -/
def Context.getFullyQualifiedNameS (ctx : Context) (s : Symbol) : Str × Context :=
  (ctx.getFullyQualifiedName s, ctx)

/-- State-passing form of the `Context.getSymbolAtLocation` accessor:
a read, per the §6 interface shape. -/
def Context.getSymbolAtLocationS (ctx : Context) (t : Str) : Option Symbol × Context :=
  (ctx.getSymbolAtLocation t, ctx)

/-- State-passing form of the `Context.resolveAliasedSymbol` accessor:
a read, per the §6 interface shape. -/
def Context.resolveAliasedSymbolS (ctx : Context) (s : Option Symbol) :
    Option Symbol × Context :=
  (ctx.resolveAliasedSymbol s, ctx)

/-- Modelled from the spec: the owning registry's
`convertTypes(context, orderedTypeArgumentNodes) -> orderedSequence<ConvertedType>`
(§6; the registry is not under `src/`), used by `convertNode` for explicit
type arguments. -/
abbrev Owner := Context → List TypeNode → List ConvertedType

/-! ## The string pipeline of `supportsNode`

`fqn.replace(/".*"\./, '').split('.')` and `node.typeName.getText().split('.')`:
JavaScript `String.prototype.replace` with a non-global regex replaces the
leftmost match; `".*"\.` matches a `"`, then a greedy run of non-newline
characters, then `"` followed by a literal `.`. -/

/-- Scan `cs` for the largest index `j` (greedy `.*`) such that `cs[j] = '"'`,
`cs[j+1] = '.'`, and no newline occurs before `j` (JS `.` does not match
newlines). Returns `none` when no such pair is reachable. -/
def lastQuoteDotBeforeNewline : Str → Option Nat
  | [] => none
  | c :: rest =>
    if c = '\n' then none
    else
      match lastQuoteDotBeforeNewline rest with
      | some j => some (j + 1)
      | none => if c = '"' ∧ rest.head? = some '.' then some 0 else none

/-- `fqn.replace(/".*"\./, '')` (alias.ts line 37): delete the leftmost, greedy
match of `".*"\.`; leave the string unchanged when there is no match. -/
def replaceQuotedMatch : Str → Str
  | [] => []
  | c :: rest =>
    if c = '"' then
      match lastQuoteDotBeforeNewline rest with
      | some j => rest.drop (j + 2)
      | none => c :: replaceQuotedMatch rest
    else c :: replaceQuotedMatch rest

/-- `s.split('.')` as in JavaScript: always a non-empty list of dot-free
segments; `''.split('.')` is `['']`. -/
def splitDot : Str → List Str
  | [] => [[]]
  | c :: rest =>
    if c = '.' then [] :: splitDot rest
    else
      match splitDot rest with
      | [] => [[c]]
      | s :: ss => (c :: s) :: ss

/-- `arr.join('.')` as in JavaScript: segments interleaved with `'.'`. -/
def joinDot : List Str → Str
  | [] => []
  | [s] => s
  | s :: s₂ :: ss => s ++ '.' :: joinDot (s₂ :: ss)

/-- The segment-comparison core of `supportsNode` (alias.ts lines 38–51), over
the two already-computed qualified-name sequences: empty-sequence guards, then
the right-aligned comparison of the trailing
`common = min(symbolName.length, nodeName.length)` segments via
`slice(-common)` and `join('.')`. -/
def supportsNodeCore (symbolName nodeName : List Str) : Bool :=
  if symbolName.isEmpty then false
  else if nodeName.isEmpty then false
  else
    let common := min symbolName.length nodeName.length
    let symbolName := symbolName.drop (symbolName.length - common)
    let nodeName := nodeName.drop (nodeName.length - common)
    if joinDot nodeName = joinDot symbolName then false else true

/-- `AliasConverter.supportsNode(context, node, type)` (alias.ts lines 27–52),
in state-passing form: guards for absent `type`, `node`, `node.typeName`;
unconditional support when `type.symbol` is absent; otherwise the
stripped-fqn/surface-name trailing-segment comparison. -/
def supportsNode (ctx : Context) (node? : Option TypeReferenceNode)
    (type? : Option Ty) : Bool × Context :=
  match type?, node? with
  | none, _ => (false, ctx)
  | _, none => (false, ctx)
  | some ty, some node =>
    match node.typeName with
    | none => (false, ctx)
    | some tn =>
      match ty.symbol with
      | none => (true, ctx)
      | some sym =>
        let (fqn, ctx) := ctx.getFullyQualifiedNameS sym
        (supportsNodeCore (splitDot (replaceQuotedMatch fqn)) (splitDot tn.getText), ctx)

/-- The lookup identifier of `convertNode` (alias.ts line 73):
`ts.isQualifiedName(node.typeName) ? node.typeName.right : node.typeName` —
the text of the right-hand identifier when qualified, the whole name otherwise. -/
def identifierTextOf : EntityName → Str
  | .qualified _ r => r
  | .ident t => t

/-- `AliasConverter.convertNode(context, node)` (alias.ts lines 70–89): build a
`ReferenceType` named by the surface text, resolve the lookup identifier's
symbol through alias indirection, target the resolved symbol's fully-qualified
name (registering it with the deferred queue) or fall back to the
resolve-by-name sentinel, and convert explicit type arguments through the
owner. `none` models the TypeError thrown by `node.typeName.getText()` when
`typeName` is absent. -/
def convertNode (owner : Owner) (ctx : Context) (node : TypeReferenceNode) :
    Option (ReferenceType × Context) :=
  match node.typeName with
  | none => none
  | some tn =>
    let name := tn.getText
    let (symbol, ctx) := ctx.getSymbolAtLocationS (identifierTextOf tn)
    let (resolved, ctx) := ctx.resolveAliasedSymbolS symbol
    match resolved with
    | some r =>
      let (f, ctx) := ctx.getFullyQualifiedNameS r
      let result : ReferenceType := { name := name, resolutionTarget := .fqn f }
      let ctx := ctx.saveRemainingSymbolReflection f r
      let result :=
        match node.typeArguments with
        | some args => { result with typeArguments := some (owner ctx args) }
        | none => result
      some (result, ctx)
    | none =>
      let result : ReferenceType := { name := name, resolutionTarget := .resolveByName }
      let result :=
        match node.typeArguments with
        | some args => { result with typeArguments := some (owner ctx args) }
        | none => result
      some (result, ctx)

/-- Modelled from the spec: the `TypeNodeConverter` interface
(`../components` is not under `src/`) invokes a converter's conversion with the
resolved type as well; `AliasConverter.convertNode` declares no type parameter,
so the invocation discards the type. -/
def convertNodeInvoked (owner : Owner) (ctx : Context) (node : TypeReferenceNode)
    (_type? : Option Ty) : Option (ReferenceType × Context) :=
  convertNode owner ctx node

/-- Per the spec's words, for comparison with `replaceQuotedMatch`: strip
exactly "any leading quoted module/path segment" — a leading `"`, through the
first closing `"` followed by `.` — and nothing else. -/
def specStripLeadingQuoted (cs : Str) : Str :=
  match cs with
  | '"' :: rest =>
    match rest.dropWhile (fun c => c ≠ '"') with
    | '"' :: '.' :: tail => tail
    | _ => cs
  | _ => cs

/-! ## Helper lemmas -/

/-- JavaScript `split` never produces an empty array. -/
theorem splitDot_ne_nil (cs : Str) : splitDot cs ≠ [] := by
  induction cs with
  | nil => simp [splitDot]
  | cons c rest ih =>
    rw [splitDot]
    by_cases h : c = '.'
    · simp [h]
    · simp only [h, if_false]
      cases hs : splitDot rest with
      | nil => simp
      | cons s ss => simp

/-- Segments produced by `splitDot` contain no dot. -/
theorem splitDot_dotFree (cs : Str) : ∀ p ∈ splitDot cs, '.' ∉ p := by
  induction cs with
  | nil => intro p hp; simp [splitDot] at hp; simp [hp]
  | cons c rest ih =>
    intro p hp
    rw [splitDot] at hp
    by_cases h : c = '.'
    · simp only [h, if_true] at hp
      rcases List.mem_cons.mp hp with h1 | h1
      · simp [h1]
      · exact ih p h1
    · simp only [h, if_false] at hp
      cases hs : splitDot rest with
      | nil => exact absurd hs (splitDot_ne_nil rest)
      | cons s ss =>
        rw [hs] at hp
        rcases List.mem_cons.mp hp with h1 | h1
        · subst h1
          intro hmem
          rcases List.mem_cons.mp hmem with h2 | h2
          · exact h h2.symm
          · exact ih s (hs ▸ List.mem_cons_self s ss) h2
        · exact ih p (hs ▸ List.mem_cons_of_mem s h1)

/-- Dot-free prefixes before a separating dot are uniquely determined. -/
theorem appendDot_inj (x : Str) : ∀ (y a b : Str), '.' ∉ x → '.' ∉ y →
    x ++ '.' :: a = y ++ '.' :: b → x = y ∧ a = b := by
  induction x with
  | nil =>
    intro y a b _ hy h
    cases y with
    | nil => exact ⟨rfl, by simpa using h⟩
    | cons d y' =>
      simp only [List.nil_append, List.cons_append, List.cons.injEq] at h
      exact absurd (h.1 ▸ List.mem_cons_self d y') hy
  | cons c x' ih =>
    intro y a b hx hy h
    cases y with
    | nil =>
      simp only [List.cons_append, List.nil_append, List.cons.injEq] at h
      exact absurd (h.1 ▸ List.mem_cons_self c x') hx
    | cons d y' =>
      simp only [List.cons_append, List.cons.injEq] at h
      have hx' : '.' ∉ x' := fun hm => hx (List.mem_cons_of_mem c hm)
      have hy' : '.' ∉ y' := fun hm => hy (List.mem_cons_of_mem d hm)
      obtain ⟨h1, h2⟩ := ih y' a b hx' hy' h.2
      exact ⟨by rw [h.1, h1], h2⟩

/-- `join('.')` is injective on equal-length lists of dot-free segments. -/
theorem joinDot_inj : ∀ xs ys : List Str, xs.length = ys.length →
    (∀ p ∈ xs, '.' ∉ p) → (∀ p ∈ ys, '.' ∉ p) →
    joinDot xs = joinDot ys → xs = ys := by
  intro xs
  induction xs with
  | nil =>
    intro ys hlen _ _ _
    cases ys with
    | nil => rfl
    | cons y ys' => simp at hlen
  | cons x xs' ih =>
    intro ys hlen hx hy h
    cases ys with
    | nil => simp at hlen
    | cons y ys' =>
      cases xs' with
      | nil =>
        cases ys' with
        | nil => simpa [joinDot] using h
        | cons y₂ ys'' => simp at hlen
      | cons x₂ xs'' =>
        cases ys' with
        | nil => simp at hlen
        | cons y₂ ys'' =>
          rw [joinDot, joinDot] at h
          have hx0 : '.' ∉ x := hx x (List.mem_cons_self x _)
          have hy0 : '.' ∉ y := hy y (List.mem_cons_self y _)
          obtain ⟨h1, h2⟩ := appendDot_inj x y _ _ hx0 hy0 h
          have hlen' : (x₂ :: xs'').length = (y₂ :: ys'').length := by
            simpa using hlen
          have hx' : ∀ p ∈ x₂ :: xs'', '.' ∉ p := fun p hp =>
            hx p (List.mem_cons_of_mem x hp)
          have hy' : ∀ p ∈ y₂ :: ys'', '.' ∉ p := fun p hp =>
            hy p (List.mem_cons_of_mem y hp)
          rw [h1, ih (y₂ :: ys'') hlen' hx' hy' h2]

/-- The upserted pair is present in the updated queue. -/
theorem mem_upsert_self (l : List (Str × Symbol)) (f : Str) (s : Symbol) :
    (f, s) ∈ upsert l f s := by
  induction l with
  | nil => simp [upsert]
  | cons p ps ih =>
    rw [upsert]
    by_cases h : p.1 = f
    · simp [h]
    · simp only [h, if_false]
      exact List.mem_cons_of_mem p ih

/-- Saving a reflection does not change the symbol-lookup accessor. -/
@[simp] theorem save_getSymbolAtLocation (ctx : Context) (f : Str) (s : Symbol) :
    (ctx.saveRemainingSymbolReflection f s).getSymbolAtLocation =
      ctx.getSymbolAtLocation := rfl

/-- Saving a reflection does not change the alias-resolution accessor. -/
@[simp] theorem save_resolveAliasedSymbol (ctx : Context) (f : Str) (s : Symbol) :
    (ctx.saveRemainingSymbolReflection f s).resolveAliasedSymbol =
      ctx.resolveAliasedSymbol := rfl

/-- Saving a reflection does not change the fully-qualified-name accessor. -/
@[simp] theorem save_getFullyQualifiedName (ctx : Context) (f : Str) (s : Symbol) :
    (ctx.saveRemainingSymbolReflection f s).getFullyQualifiedName =
      ctx.getFullyQualifiedName := rfl

/-- A quote-free string contains no match of `".*"\.`. -/
theorem lastQuoteDot_of_no_quote (cs : Str) (h : '"' ∉ cs) :
    lastQuoteDotBeforeNewline cs = none := by
  induction cs with
  | nil => rfl
  | cons c rest ih =>
    rw [lastQuoteDotBeforeNewline]
    have hc : c ≠ '"' := fun hh => h (hh ▸ List.mem_cons_self c rest)
    have hr : '"' ∉ rest := fun hm => h (List.mem_cons_of_mem c hm)
    by_cases hn : c = '\n'
    · simp [hn]
    · simp [hn, ih hr, hc]

/-- Greedy match end: with a quote-free, newline-free `m` and a quote-free
tail, the unique quote-dot pair is found at index `m.length`. -/
theorem lastQuoteDot_append (m rest : Str) (hqm : '"' ∉ m) (hnm : '\n' ∉ m)
    (hqr : '"' ∉ rest) :
    lastQuoteDotBeforeNewline (m ++ '"' :: '.' :: rest) = some m.length := by
  induction m with
  | nil =>
    rw [List.nil_append, lastQuoteDotBeforeNewline]
    have h1 : lastQuoteDotBeforeNewline ('.' :: rest) = none := by
      rw [lastQuoteDotBeforeNewline]
      have : '.' ≠ '"' := by decide
      simp [lastQuoteDot_of_no_quote rest hqr, this]
    simp [h1]
  | cons c m' ih =>
    have hc : c ≠ '\n' := fun hh => hnm (hh ▸ List.mem_cons_self c m')
    have hqm' : '"' ∉ m' := fun hm => hqm (List.mem_cons_of_mem c hm)
    have hnm' : '\n' ∉ m' := fun hm => hnm (List.mem_cons_of_mem c hm)
    rw [List.cons_append, lastQuoteDotBeforeNewline]
    simp [hc, ih hqm' hnm']

/-- A quote-free string is left unchanged by the replace. -/
theorem replaceQuotedMatch_no_quote (cs : Str) (h : '"' ∉ cs) :
    replaceQuotedMatch cs = cs := by
  induction cs with
  | nil => rfl
  | cons c rest ih =>
    have hc : c ≠ '"' := fun hh => h (hh ▸ List.mem_cons_self c rest)
    have hr : '"' ∉ rest := fun hm => h (List.mem_cons_of_mem c hm)
    rw [replaceQuotedMatch]
    simp [hc, ih hr]

/-! ## Claim theorems -/

/-- C3: for every use-site whose node carries a name and whose resolved type is
present but has no associated symbol, `supportsNode` returns true, regardless
of the surface name. -/
theorem supportsNode_no_symbol (ctx : Context) (node : TypeReferenceNode)
    (ty : Ty) (tn : EntityName) (hname : node.typeName = some tn)
    (hsym : ty.symbol = none) :
    (supportsNode ctx (some node) (some ty)).1 = true := by
  simp [supportsNode, hname, hsym]

/-- C3 witness. -/
theorem supportsNode_no_symbol_witness :
    (supportsNode ⟨fun _ => [], fun _ => none, fun s => s, []⟩
      (some ⟨some (EntityName.ident ['M', 'y', 'N', 'u', 'm', 'b', 'e', 'r']), none⟩)
      (some ⟨none⟩)).1 = true :=
  supportsNode_no_symbol _ _ _ (EntityName.ident ['M', 'y', 'N', 'u', 'm', 'b', 'e', 'r'])
    rfl rfl

/-- C5: for every use-site where the node has no name portion or the resolved
type is absent, `supportsNode` returns false; being a total function into
`Bool × Context`, it raises no exception. -/
theorem supportsNode_malformed (ctx : Context) (node? : Option TypeReferenceNode)
    (type? : Option Ty)
    (h : (∃ node, node? = some node ∧ node.typeName = none) ∨ type? = none) :
    (supportsNode ctx node? type?).1 = false := by
  rcases h with ⟨node, hn, hname⟩ | ht
  · subst hn
    cases type? with
    | none => rfl
    | some ty => simp [supportsNode, hname]
  · subst ht
    cases node? <;> rfl

/-- C5 witness: both malformed shapes at concrete inputs. -/
theorem supportsNode_malformed_witness :
    (supportsNode ⟨fun _ => [], fun _ => none, fun s => s, []⟩
        (some ⟨none, none⟩) (some ⟨some 1⟩)).1 = false ∧
    (supportsNode ⟨fun _ => [], fun _ => none, fun s => s, []⟩
        (some ⟨some (EntityName.ident ['A']), none⟩) none).1 = false :=
  ⟨supportsNode_malformed _ _ _ (Or.inl ⟨⟨none, none⟩, rfl, rfl⟩),
   supportsNode_malformed _ _ _ (Or.inr rfl)⟩

/-- C7: in the segment-comparison core of the support predicate (to which
`supportsNode` delegates after its guards), an empty qualified-name sequence on
either side yields false. -/
theorem supportsNodeCore_empty (ss ns : List Str) (h : ss = [] ∨ ns = []) :
    supportsNodeCore ss ns = false := by
  rcases h with h | h
  · simp [supportsNodeCore, h]
  · cases ss <;> simp [supportsNodeCore, h]

/-- C7 witness: each empty side at a concrete input. -/
theorem supportsNodeCore_empty_witness :
    supportsNodeCore [] [['A']] = false ∧ supportsNodeCore [['A']] [] = false :=
  ⟨supportsNodeCore_empty [] [['A']] (Or.inl rfl),
   supportsNodeCore_empty [['A']] [] (Or.inr rfl)⟩

/-- C9: conversion (as invoked through the converter interface, which also
passes the resolved type) does not depend on the resolved type at all:
identical results — `ReferenceType` and updated `Context`, queue included —
for any two types. -/
theorem convertNodeInvoked_type_independent (owner : Owner) (ctx : Context)
    (node : TypeReferenceNode) (ty₁ ty₂ : Option Ty) :
    convertNodeInvoked owner ctx node ty₁ = convertNodeInvoked owner ctx node ty₂ :=
  rfl

/-- C10: `supportsNode` has no side effect on the Context — the returned state,
deferred-reflection queue included, is the input state — and a conversion call
whose alias resolution finds no target symbol returns the Context unchanged, so
only a conversion that finds a resolved target symbol modifies the queue. -/
theorem supportsNode_frame (ctx : Context) (node? : Option TypeReferenceNode)
    (type? : Option Ty) :
    (supportsNode ctx node? type?).2 = ctx ∧
    (∀ (owner : Owner) (node : TypeReferenceNode) (tn : EntityName),
      node.typeName = some tn →
      ctx.resolveAliasedSymbol (ctx.getSymbolAtLocation (identifierTextOf tn)) = none →
      ∃ r, convertNode owner ctx node = some (r, ctx)) := by
  constructor
  · rcases type? with _ | ty
    · cases node? <;> rfl
    rcases node? with _ | node
    · rfl
    rcases hname : node.typeName with _ | tn
    · simp [supportsNode, hname]
    rcases hsym : ty.symbol with _ | sym <;>
      simp [supportsNode, hname, hsym, Context.getFullyQualifiedNameS]
  · intro owner node tn hname hres
    rcases harg : node.typeArguments with _ | args <;>
      simp [convertNode, hname, harg, Context.getSymbolAtLocationS,
        Context.resolveAliasedSymbolS, hres]

/-- C10 witness. -/
theorem supportsNode_frame_witness :
    (supportsNode ⟨fun _ => ['X'], fun _ => some 1, fun s => s, []⟩
        (some ⟨some (EntityName.ident ['A']), none⟩) (some ⟨some 1⟩)).2 =
      (⟨fun _ => ['X'], fun _ => some 1, fun s => s, []⟩ : Context) ∧
    ∃ r, convertNode (fun _ l => l)
        ⟨fun _ => ['X'], fun _ => none, fun _ => none, []⟩
        ⟨some (EntityName.ident ['A']), none⟩ =
      some (r, (⟨fun _ => ['X'], fun _ => none, fun _ => none, []⟩ : Context)) :=
  ⟨(supportsNode_frame ⟨fun _ => ['X'], fun _ => some 1, fun s => s, []⟩
      (some ⟨some (EntityName.ident ['A']), none⟩) (some ⟨some 1⟩)).1,
   (supportsNode_frame ⟨fun _ => ['X'], fun _ => none, fun _ => none, []⟩
      (some ⟨some (EntityName.ident ['A']), none⟩) (some ⟨some 1⟩)).2
     (fun _ l => l) ⟨some (EntityName.ident ['A']), none⟩ (EntityName.ident ['A'])
     rfl rfl⟩

/-- The segment-comparison core, characterized: on non-empty dot-free
sequences it is true exactly when the trailing `min`-length slices differ. -/
theorem supportsNodeCore_iff (ss ns : List Str) (hs : ss ≠ []) (hn : ns ≠ [])
    (hsf : ∀ p ∈ ss, '.' ∉ p) (hnf : ∀ p ∈ ns, '.' ∉ p) :
    (supportsNodeCore ss ns = true ↔
      ns.drop (ns.length - min ss.length ns.length) ≠
        ss.drop (ss.length - min ss.length ns.length)) := by
  have hc1 : min ss.length ns.length ≤ ss.length := Nat.min_le_left _ _
  have hc2 : min ss.length ns.length ≤ ns.length := Nat.min_le_right _ _
  rw [supportsNodeCore,
    if_neg (by simpa [List.isEmpty_iff] using hs),
    if_neg (by simpa [List.isEmpty_iff] using hn)]
  by_cases hj :
      joinDot (ns.drop (ns.length - min ss.length ns.length)) =
        joinDot (ss.drop (ss.length - min ss.length ns.length))
  · have hlen : (ns.drop (ns.length - min ss.length ns.length)).length =
        (ss.drop (ss.length - min ss.length ns.length)).length := by
      simp [List.length_drop, Nat.sub_sub_self hc1, Nat.sub_sub_self hc2]
    have heq := joinDot_inj _ _ hlen
      (fun p hp => hnf p (List.mem_of_mem_drop hp))
      (fun p hp => hsf p (List.mem_of_mem_drop hp)) hj
    simp [hj, heq]
  · rw [if_neg hj]
    exact ⟨fun _ he => hj (congrArg joinDot he), fun _ => rfl⟩

/-- C1: when the node has a name and the resolved type has a symbol,
`supportsNode` returns true iff the trailing
`k = min(len(symbolName), len(nodeName))` segments of the symbol's stripped
qualified name and of the surface name differ; equal trailing sequences are
not claimed as support. -/
theorem supportsNode_iff_trailing_differ (ctx : Context) (node : TypeReferenceNode)
    (ty : Ty) (tn : EntityName) (sym : Symbol)
    (hname : node.typeName = some tn) (hsym : ty.symbol = some sym) :
    ((supportsNode ctx (some node) (some ty)).1 = true ↔
      (splitDot tn.getText).drop ((splitDot tn.getText).length -
          min (splitDot (replaceQuotedMatch (ctx.getFullyQualifiedName sym))).length
            (splitDot tn.getText).length) ≠
        (splitDot (replaceQuotedMatch (ctx.getFullyQualifiedName sym))).drop
          ((splitDot (replaceQuotedMatch (ctx.getFullyQualifiedName sym))).length -
            min (splitDot (replaceQuotedMatch (ctx.getFullyQualifiedName sym))).length
              (splitDot tn.getText).length)) := by
  have h1 : (supportsNode ctx (some node) (some ty)).1 =
      supportsNodeCore (splitDot (replaceQuotedMatch (ctx.getFullyQualifiedName sym)))
        (splitDot tn.getText) := by
    simp [supportsNode, hname, hsym, Context.getFullyQualifiedNameS]
  rw [h1]
  exact supportsNodeCore_iff _ _ (splitDot_ne_nil _) (splitDot_ne_nil _)
    (splitDot_dotFree _) (splitDot_dotFree _)

/-- C1 witness: surface name `Alias`, symbol fqn `"mod".RealClass` — the
predicate claims support since the trailing segments differ. -/
theorem supportsNode_iff_trailing_differ_witness :
    ((supportsNode
        ⟨fun _ => ['"', 'm', 'o', 'd', '"', '.', 'R', 'e', 'a', 'l', 'C', 'l', 'a', 's', 's'],
          fun _ => some 1, fun s => s, []⟩
        (some ⟨some (EntityName.ident ['A', 'l', 'i', 'a', 's']), none⟩)
        (some ⟨some 1⟩)).1 = true ↔
      ([['A', 'l', 'i', 'a', 's']] : List Str) ≠
        [['R', 'e', 'a', 'l', 'C', 'l', 'a', 's', 's']]) := by
  exact supportsNode_iff_trailing_differ _ _ _
    (EntityName.ident ['A', 'l', 'i', 'a', 's']) 1 rfl rfl

/-- C6 counterexample: on the fully-qualified name `"a".M."b".N` the code's
replace (greedy, unanchored `".*"\.`) yields `N`, not the spec's
`M."b".N` — a non-leading quoted segment and the content between the two
quoted segments are removed as well. -/
theorem replaceQuotedMatch_not_leading_only :
    replaceQuotedMatch
        ['"', 'a', '"', '.', 'M', '.', '"', 'b', '"', '.', 'N'] = ['N'] ∧
    specStripLeadingQuoted
        ['"', 'a', '"', '.', 'M', '.', '"', 'b', '"', '.', 'N'] =
      ['M', '.', '"', 'b', '"', '.', 'N'] ∧
    (['N'] : Str) ≠ ['M', '.', '"', 'b', '"', '.', 'N'] := by
  refine ⟨by decide, by decide, by decide⟩

/-- C6 amended: the replace removes the leftmost greedy match of `".*"\.`:
everything from the first quote through the last newline-reachable quote-dot
pair. When the only quoted segment is the leading one (quote-free,
newline-free interior, no later quote), exactly that segment is stripped; a
string with no quote is untouched; but a non-leading quoted segment is also
stripped. -/
theorem replaceQuotedMatch_greedy (m rest : Str)
    (hqm : '"' ∉ m) (hnm : '\n' ∉ m) (hqr : '"' ∉ rest) :
    replaceQuotedMatch ('"' :: (m ++ '"' :: '.' :: rest)) = rest ∧
    (∀ cs : Str, '"' ∉ cs → replaceQuotedMatch cs = cs) ∧
    replaceQuotedMatch ['x', '.', '"', 'a', '"', '.', 'y'] = ['x', '.', 'y'] := by
  refine ⟨?_, replaceQuotedMatch_no_quote, by decide⟩
  rw [replaceQuotedMatch]
  simp only [if_pos, lastQuoteDot_append m rest hqm hnm hqr]
  have hL : m ++ '"' :: '.' :: rest = (m ++ ['"', '.']) ++ rest := by simp
  rw [hL]
  exact List.drop_left' (by simp)

/-- C6 amended witness: leading segment `"mod".` before `R` is stripped
exactly; the non-leading quoted segment of `x."a".y` is stripped too. -/
theorem replaceQuotedMatch_greedy_witness :
    replaceQuotedMatch ('"' :: (['m', 'o', 'd'] ++ '"' :: '.' :: ['R'])) = ['R'] ∧
    replaceQuotedMatch ['x', '.', '"', 'a', '"', '.', 'y'] = ['x', '.', 'y'] :=
  ⟨(replaceQuotedMatch_greedy ['m', 'o', 'd'] ['R']
      (by decide) (by decide) (by decide)).1,
   (replaceQuotedMatch_greedy ['m', 'o', 'd'] ['R']
      (by decide) (by decide) (by decide)).2.2⟩

/-- Full characterization of `convertNode` on a named node: the returned
reference, the output context's unchanged accessors, the type-argument
attachment, and the queue effect. -/
theorem convertNode_spec (owner : Owner) (ctx : Context) (node : TypeReferenceNode)
    (tn : EntityName) (hname : node.typeName = some tn) :
    ∃ res ctx', convertNode owner ctx node = some (res, ctx') ∧
      res.name = tn.getText ∧
      res.resolutionTarget =
        (match ctx.resolveAliasedSymbol (ctx.getSymbolAtLocation (identifierTextOf tn)) with
          | some r => ResolutionTarget.fqn (ctx.getFullyQualifiedName r)
          | none => ResolutionTarget.resolveByName) ∧
      ctx'.getSymbolAtLocation = ctx.getSymbolAtLocation ∧
      ctx'.resolveAliasedSymbol = ctx.resolveAliasedSymbol ∧
      ctx'.getFullyQualifiedName = ctx.getFullyQualifiedName ∧
      (∀ args, node.typeArguments = some args → res.typeArguments = some (owner ctx' args)) ∧
      (node.typeArguments = none → res.typeArguments = none) ∧
      (∀ r, ctx.resolveAliasedSymbol (ctx.getSymbolAtLocation (identifierTextOf tn)) = some r →
        (ctx.getFullyQualifiedName r, r) ∈ ctx'.remainingSymbolReflections) ∧
      (ctx.resolveAliasedSymbol (ctx.getSymbolAtLocation (identifierTextOf tn)) = none →
        ctx' = ctx) := by
  rcases hres : ctx.resolveAliasedSymbol (ctx.getSymbolAtLocation (identifierTextOf tn))
    with _ | r <;>
    rcases harg : node.typeArguments with _ | args <;>
      simp only [convertNode, hname, harg, Context.getSymbolAtLocationS,
        Context.resolveAliasedSymbolS, Context.getFullyQualifiedNameS, hres,
        Option.some.injEq, reduceCtorEq, forall_eq', IsEmpty.forall_iff,
        implies_true, true_implies, false_implies, true_and, and_true] <;>
      refine ⟨_, _, rfl, ?_⟩ <;>
      simp [Context.saveRemainingSymbolReflection, mem_upsert_self]

/-- C2: when alias resolution of the identifier's symbol yields a target, the
returned reference's resolution target is that symbol's fully-qualified name
and the (fqn, symbol) pair is registered with the deferred-reflection queue;
when it yields nothing, the reference carries the resolve-by-name sentinel,
the Context (queue included) is returned unchanged, and the call still
returns a value (no exception). -/
theorem convertNode_resolution (owner : Owner) (ctx : Context)
    (node : TypeReferenceNode) (tn : EntityName) (hname : node.typeName = some tn) :
    (∀ r, ctx.resolveAliasedSymbol (ctx.getSymbolAtLocation (identifierTextOf tn)) = some r →
      ∃ res ctx', convertNode owner ctx node = some (res, ctx') ∧
        res.resolutionTarget = ResolutionTarget.fqn (ctx.getFullyQualifiedName r) ∧
        (ctx.getFullyQualifiedName r, r) ∈ ctx'.remainingSymbolReflections) ∧
    (ctx.resolveAliasedSymbol (ctx.getSymbolAtLocation (identifierTextOf tn)) = none →
      ∃ res, convertNode owner ctx node = some (res, ctx) ∧
        res.resolutionTarget = ResolutionTarget.resolveByName) := by
  obtain ⟨res, ctx', h1, _, ht, _, _, _, _, _, hmem, hnone⟩ :=
    convertNode_spec owner ctx node tn hname
  constructor
  · intro r hr
    refine ⟨res, ctx', h1, ?_, hmem r hr⟩
    rw [ht, hr]
  · intro hr
    refine ⟨res, ?_, ?_⟩
    · rw [h1, hnone hr]
    · rw [ht, hr]

/-- C2 witness: a resolving context registers the pair; a non-resolving one
returns the sentinel with the context untouched. -/
theorem convertNode_resolution_witness :
    (∃ res ctx', convertNode (fun _ l => l)
        ⟨fun _ => ['F'], fun _ => some 2, fun s => s, []⟩
        ⟨some (EntityName.ident ['A']), none⟩ = some (res, ctx') ∧
      res.resolutionTarget = ResolutionTarget.fqn ['F'] ∧
      ((['F'], 2) ∈ ctx'.remainingSymbolReflections)) ∧
    (∃ res, convertNode (fun _ l => l)
        ⟨fun _ => ['F'], fun _ => none, fun _ => none, []⟩
        ⟨some (EntityName.ident ['A']), none⟩ =
      some (res, (⟨fun _ => ['F'], fun _ => none, fun _ => none, []⟩ : Context)) ∧
      res.resolutionTarget = ResolutionTarget.resolveByName) := by
  exact ⟨(convertNode_resolution (fun _ l => l)
      ⟨fun _ => ['F'], fun _ => some 2, fun s => s, []⟩
      ⟨some (EntityName.ident ['A']), none⟩ (EntityName.ident ['A']) rfl).1 2 rfl,
    (convertNode_resolution (fun _ l => l)
      ⟨fun _ => ['F'], fun _ => none, fun _ => none, []⟩
      ⟨some (EntityName.ident ['A']), none⟩ (EntityName.ident ['A']) rfl).2 rfl⟩

/-- C4: the returned reference's name is the full surface name as written; the
lookup identifier is the rightmost segment of a qualified name and the whole
name otherwise (and resolution proceeds from that identifier's symbol); with
explicit type-argument syntax, `typeArguments` is the owner registry's ordered
conversion of the argument list. -/
theorem convertNode_shape (owner : Owner) (ctx : Context) (node : TypeReferenceNode)
    (tn : EntityName) (hname : node.typeName = some tn) :
    ∃ res ctx', convertNode owner ctx node = some (res, ctx') ∧
      res.name = tn.getText ∧
      (∀ l r, tn = EntityName.qualified l r → identifierTextOf tn = r) ∧
      (∀ t, tn = EntityName.ident t → identifierTextOf tn = t) ∧
      res.resolutionTarget =
        (match ctx.resolveAliasedSymbol (ctx.getSymbolAtLocation (identifierTextOf tn)) with
          | some r => ResolutionTarget.fqn (ctx.getFullyQualifiedName r)
          | none => ResolutionTarget.resolveByName) ∧
      (∀ args, node.typeArguments = some args →
        res.typeArguments = some (owner ctx' args)) := by
  obtain ⟨res, ctx', h1, hn, ht, _, _, _, hargs, _⟩ :=
    convertNode_spec owner ctx node tn hname
  exact ⟨res, ctx', h1, hn,
    fun l r he => by rw [he]; rfl,
    fun t he => by rw [he]; rfl,
    ht, hargs⟩

/-- C4 witness: qualified surface name `NS.B` with one type argument. -/
theorem convertNode_shape_witness :
    ∃ res ctx', convertNode (fun _ l => l)
        ⟨fun _ => ['F'], fun _ => some 2, fun s => s, []⟩
        ⟨some (EntityName.qualified (EntityName.ident ['N', 'S']) ['B']), some [5]⟩ =
      some (res, ctx') ∧
      res.name = ['N', 'S', '.', 'B'] ∧
      identifierTextOf (EntityName.qualified (EntityName.ident ['N', 'S']) ['B']) = ['B'] ∧
      res.resolutionTarget = ResolutionTarget.fqn ['F'] ∧
      res.typeArguments = some [5] := by
  obtain ⟨res, ctx', h1, hn, hq, _, ht, hargs⟩ :=
    convertNode_shape (fun _ l => l)
      ⟨fun _ => ['F'], fun _ => some 2, fun s => s, []⟩
      ⟨some (EntityName.qualified (EntityName.ident ['N', 'S']) ['B']), some [5]⟩
      (EntityName.qualified (EntityName.ident ['N', 'S']) ['B']) rfl
  exact ⟨res, ctx', h1, hn, hq _ _ rfl, ht, hargs [5] rfl⟩

/-- C8: converting the same use-site twice — the second conversion running in
the Context produced by the first, whose lookup accessors are unchanged —
yields references with identical name and identical resolution target. -/
theorem convertNode_idempotent (owner : Owner) (ctx : Context)
    (node : TypeReferenceNode) (tn : EntityName) (hname : node.typeName = some tn) :
    ∃ r₁ ctx₁ r₂ ctx₂,
      convertNode owner ctx node = some (r₁, ctx₁) ∧
      convertNode owner ctx₁ node = some (r₂, ctx₂) ∧
      r₁.name = r₂.name ∧ r₁.resolutionTarget = r₂.resolutionTarget := by
  obtain ⟨r₁, ctx₁, h1, hn1, ht1, ha1, ha2, ha3, _⟩ :=
    convertNode_spec owner ctx node tn hname
  obtain ⟨r₂, ctx₂, h2, hn2, ht2, _⟩ :=
    convertNode_spec owner ctx₁ node tn hname
  refine ⟨r₁, ctx₁, r₂, ctx₂, h1, h2, by rw [hn1, hn2], ?_⟩
  rw [ht1, ht2, ha1, ha2, ha3]

/-- C8 witness. -/
theorem convertNode_idempotent_witness :
    ∃ r₁ ctx₁ r₂ ctx₂,
      convertNode (fun _ l => l)
          ⟨fun _ => ['F'], fun _ => some 2, fun s => s, []⟩
          ⟨some (EntityName.ident ['A']), none⟩ = some (r₁, ctx₁) ∧
      convertNode (fun _ l => l) ctx₁ ⟨some (EntityName.ident ['A']), none⟩ =
        some (r₂, ctx₂) ∧
      r₁.name = r₂.name ∧ r₁.resolutionTarget = r₂.resolutionTarget :=
  convertNode_idempotent (fun _ l => l)
    ⟨fun _ => ['F'], fun _ => some 2, fun s => s, []⟩
    ⟨some (EntityName.ident ['A']), none⟩ (EntityName.ident ['A']) rfl

end AliasConv
